import Mathlib

/-!
Verification of the behavioral-simulation and inventory-consistency engine of
`dataset_generator.py` (synthetic e-commerce dataset generator).

The Python program draws all randomness through the global `random` module;
here every random draw is an explicit argument (a drawn value, or a list of
drawn values), so each modelled function is a pure function of its draws.
Python integers are unbounded, so they are modelled as `Int`/`Nat`.
Product ids (`prod_%05d` strings in the source) are modelled as naturals,
order-isomorphically to the fixed-width id strings.
-/

/-- The per-product state the `Inventory` class reads and mutates:
the `current_stock` and `is_active` fields of a product dict. -/
structure ProductState where
  current_stock : Int
  is_active : Bool
deriving Repr, DecidableEq

/-- The `Inventory.products` mapping (`product_id -> product dict`),
modelled as an association list keyed by product id.  The session builder
and the orphan generator read the same dicts the ledger mutates, so one
value of this type is the whole shared mutable state of a run. -/
abbrev Inventory : Type := List (Nat × ProductState)

/-- Dictionary read `self.products.get(pid)`. -/
def lookupInv : Inventory → Nat → Option ProductState
  | [], _ => none
  | (k, s) :: rest, pid => if k = pid then some s else lookupInv rest pid

/-- In-place mutation of the dict entry at `pid` (a no-op on an absent key;
the source only mutates a key it has just looked up). -/
def updateInv : Inventory → Nat → ProductState → Inventory
  | [], _, _ => []
  | (k, s) :: rest, pid, s' =>
      if k = pid then (k, s') :: rest else (k, s) :: updateInv rest pid s'

/-- `Inventory.in_stock`: the product exists, has `current_stock >= qty`
and `is_active is True`. -/
def in_stock (inv : Inventory) (pid : Nat) (qty : Int) : Bool :=
  match lookupInv inv pid with
  | none => false
  | some p => decide (qty ≤ p.current_stock) && p.is_active

/-- `Inventory.reserve`: re-checks `in_stock`; on success decrements the
stock by `qty`, clamping at 0 and deactivating when the result reaches 0,
and returns `true`; on failure returns `false` with no mutation.  The inner
`none` branch is unreachable because `in_stock` requires the lookup to
succeed. -/
def reserve (inv : Inventory) (pid : Nat) (qty : Int) : Bool × Inventory :=
  if in_stock inv pid qty then
    match lookupInv inv pid with
    | none => (false, inv)
    | some p =>
        let newStock := p.current_stock - qty
        if newStock ≤ 0 then (true, updateInv inv pid ⟨0, false⟩)
        else (true, updateInv inv pid ⟨newStock, p.is_active⟩)
  else (false, inv)

/-- Stocks are nonnegative across the ledger (entry-wise, so it is
decidable on concrete ledgers). -/
def InvNonneg (inv : Inventory) : Prop := ∀ e ∈ inv, 0 ≤ e.2.current_stock

lemma lookupInv_updateInv_self (inv : Inventory) (pid : Nat) (s s' : ProductState)
    (h : lookupInv inv pid = some s) :
    lookupInv (updateInv inv pid s') pid = some s' := by
  induction inv with
  | nil => simp [lookupInv] at h
  | cons e rest ih =>
      obtain ⟨k, t⟩ := e
      by_cases hk : k = pid
      · simp [lookupInv, updateInv, hk]
      · simp only [lookupInv, updateInv, if_neg hk] at h ⊢
        exact ih h

lemma lookupInv_updateInv_ne (inv : Inventory) (pid pid' : Nat) (s' : ProductState)
    (h : pid' ≠ pid) :
    lookupInv (updateInv inv pid s') pid' = lookupInv inv pid' := by
  induction inv with
  | nil => simp [updateInv]
  | cons e rest ih =>
      obtain ⟨k, t⟩ := e
      by_cases hk : k = pid
      · subst hk
        have : ¬ k = pid' := fun hc => h hc.symm
        simp [lookupInv, updateInv, this]
      · by_cases hk' : k = pid'
        · simp [lookupInv, updateInv, hk, hk', h]
        · simp only [lookupInv, updateInv, if_neg hk, if_neg hk']
          exact ih

lemma lookupInv_updateInv_none (inv : Inventory) (pid pid' : Nat) (s' : ProductState)
    (h : lookupInv inv pid' = none) :
    lookupInv (updateInv inv pid s') pid' = none := by
  induction inv with
  | nil => simp [updateInv, lookupInv]
  | cons e rest ih =>
      obtain ⟨k, t⟩ := e
      by_cases hk' : k = pid'
      · simp [lookupInv, hk'] at h
      · by_cases hk : k = pid
        · simp only [lookupInv, updateInv, if_pos hk, if_neg hk'] at h ⊢
          exact h
        · simp only [lookupInv, updateInv, if_neg hk, if_neg hk'] at h ⊢
          exact ih h

lemma lookupInv_mem (inv : Inventory) (pid : Nat) (s : ProductState)
    (h : lookupInv inv pid = some s) : (pid, s) ∈ inv := by
  induction inv with
  | nil => simp [lookupInv] at h
  | cons e rest ih =>
      obtain ⟨k, t⟩ := e
      by_cases hk : k = pid
      · subst hk
        simp [lookupInv] at h
        simp [h]
      · simp only [lookupInv, if_neg hk] at h
        exact List.mem_cons_of_mem _ (ih h)

lemma mem_updateInv (inv : Inventory) (pid : Nat) (s' : ProductState) :
    ∀ e ∈ updateInv inv pid s', e = (pid, s') ∨ e ∈ inv := by
  induction inv with
  | nil => simp [updateInv]
  | cons a rest ih =>
      obtain ⟨k, t⟩ := a
      intro e he
      by_cases hk : k = pid
      · subst hk
        simp only [updateInv, if_pos rfl] at he
        rcases List.mem_cons.mp he with h | h
        · exact Or.inl h
        · exact Or.inr (List.mem_cons_of_mem _ h)
      · simp only [updateInv, if_neg hk] at he
        rcases List.mem_cons.mp he with h | h
        · exact Or.inr (by simp [h])
        · rcases ih e h with h' | h'
          · exact Or.inl h'
          · exact Or.inr (List.mem_cons_of_mem _ h')

lemma in_stock_iff (inv : Inventory) (pid : Nat) (qty : Int) :
    in_stock inv pid qty = true ↔
      ∃ s, lookupInv inv pid = some s ∧ s.is_active = true ∧ qty ≤ s.current_stock := by
  cases h : lookupInv inv pid with
  | none => simp [in_stock, h]
  | some p =>
      simp only [in_stock, h, Bool.and_eq_true, decide_eq_true_eq]
      constructor
      · rintro ⟨hq, ha⟩; exact ⟨p, rfl, ha, hq⟩
      · rintro ⟨s, hs, ha, hq⟩
        cases hs
        exact ⟨hq, ha⟩

lemma reserve_fail (inv : Inventory) (pid : Nat) (qty : Int)
    (h : in_stock inv pid qty = false) : reserve inv pid qty = (false, inv) := by
  simp [reserve, h]

lemma reserve_success (inv : Inventory) (pid : Nat) (qty : Int) (s : ProductState)
    (hl : lookupInv inv pid = some s) (ha : s.is_active = true) (hq : qty ≤ s.current_stock) :
    reserve inv pid qty =
      (true, updateInv inv pid
        (if s.current_stock - qty ≤ 0 then ⟨0, false⟩
         else ⟨s.current_stock - qty, s.is_active⟩)) := by
  have hin : in_stock inv pid qty = true := (in_stock_iff inv pid qty).mpr ⟨s, hl, ha, hq⟩
  by_cases hc : s.current_stock - qty ≤ 0 <;> simp [reserve, hin, hl, hc]

/-- One `reserve` call, observed at an arbitrary product `pid'`: the product
stays present; its stock drops by exactly `qty` when this call is the
successful one on `pid'` and is untouched otherwise; nonnegativity is kept;
activity is never switched on; and a zero-stock-implies-inactive entry stays
that way. -/
lemma reserve_track (inv : Inventory) (pid : Nat) (qty : Int) (pid' : Nat) (s : ProductState)
    (h : lookupInv inv pid' = some s) :
    ∃ s', lookupInv (reserve inv pid qty).2 pid' = some s' ∧
      s'.current_stock =
        s.current_stock - (if (reserve inv pid qty).1 = true ∧ pid' = pid then qty else 0) ∧
      (0 ≤ s.current_stock → 0 ≤ s'.current_stock) ∧
      (s'.is_active = true → s.is_active = true) ∧
      ((s.current_stock = 0 → s.is_active = false) →
        (s'.current_stock = 0 → s'.is_active = false)) := by
  cases hin : in_stock inv pid qty with
  | false =>
      have hr := reserve_fail inv pid qty hin
      refine ⟨s, ?_, ?_, fun h0 => h0, fun h1 => h1, fun h2 => h2⟩
      · rw [hr]; exact h
      · rw [hr]; simp
  | true =>
      obtain ⟨p, hp, hact, hq⟩ := (in_stock_iff inv pid qty).mp hin
      have hr := reserve_success inv pid qty p hp hact hq
      by_cases hpid : pid' = pid
      · subst hpid
        have hsp : p = s := by rw [hp] at h; exact Option.some_inj.mp h
        subst hsp
        by_cases hc : p.current_stock - qty ≤ 0
        · have hz : p.current_stock - qty = 0 := le_antisymm hc (by omega)
          refine ⟨⟨0, false⟩, ?_, ?_, ?_, ?_, ?_⟩
          · rw [hr]; simp only [if_pos hc]
            exact lookupInv_updateInv_self inv _ p ⟨0, false⟩ hp
          · rw [hr]; simp [hz]
          · intro _; simp
          · intro hfalse; simp at hfalse
          · intro _ _; rfl
        · refine ⟨⟨p.current_stock - qty, p.is_active⟩, ?_, ?_, ?_, ?_, ?_⟩
          · rw [hr]; simp only [if_neg hc]
            exact lookupInv_updateInv_self inv _ p _ hp
          · rw [hr]; simp
          · intro _
            show 0 ≤ p.current_stock - qty
            omega
          · intro h1; exact h1
          · intro _ hz
            exfalso
            have : p.current_stock - qty = 0 := hz
            omega
      · refine ⟨s, ?_, ?_, fun h0 => h0, fun h1 => h1, fun h2 => h2⟩
        · rw [hr]
          by_cases hc : p.current_stock - qty ≤ 0 <;>
            simp only [if_pos, if_neg, hc] <;>
            [skip; skip] <;>
            exact (lookupInv_updateInv_ne inv pid pid' _ hpid).trans h
        · simp [hpid]

/-- The absent stay absent across one `reserve` call. -/
lemma reserve_none (inv : Inventory) (pid : Nat) (qty : Int) (pid' : Nat)
    (h : lookupInv inv pid' = none) :
    lookupInv (reserve inv pid qty).2 pid' = none := by
  cases hin : in_stock inv pid qty with
  | false => rw [reserve_fail inv pid qty hin]; exact h
  | true =>
      obtain ⟨p, hp, hact, hq⟩ := (in_stock_iff inv pid qty).mp hin
      rw [reserve_success inv pid qty p hp hact hq]
      exact lookupInv_updateInv_none inv pid pid' _ h

/-- C3: `Inventory.reserve(pid, qty)` — when the product exists, is active
and has `current_stock ≥ qty`, it returns `true`, decrements that product's
stock by exactly `qty`, deactivates it exactly when the resulting stock is
0, and touches no other product; in every other case it returns `false` and
leaves the whole ledger unchanged; and stocks never become negative. -/
theorem reserve_spec (inv : Inventory) (pid : Nat) (qty : Int) :
    (∀ s, lookupInv inv pid = some s → s.is_active = true → qty ≤ s.current_stock →
      (reserve inv pid qty).1 = true ∧
      (∃ s', lookupInv (reserve inv pid qty).2 pid = some s' ∧
        s'.current_stock = s.current_stock - qty ∧
        (s'.is_active = false ↔ s.current_stock - qty = 0)) ∧
      (∀ pid', pid' ≠ pid → lookupInv (reserve inv pid qty).2 pid' = lookupInv inv pid')) ∧
    ((¬ ∃ s, lookupInv inv pid = some s ∧ s.is_active = true ∧ qty ≤ s.current_stock) →
      reserve inv pid qty = (false, inv)) ∧
    (InvNonneg inv → InvNonneg (reserve inv pid qty).2) := by
  refine ⟨?_, ?_, ?_⟩
  · intro s hl ha hq
    have hr := reserve_success inv pid qty s hl ha hq
    by_cases hc : s.current_stock - qty ≤ 0
    · have hz : s.current_stock - qty = 0 := le_antisymm hc (by omega)
      refine ⟨by rw [hr], ⟨⟨0, false⟩, ?_, by simp [hz], by simp [hz]⟩, ?_⟩
      · rw [hr]; simp only [if_pos hc]
        exact lookupInv_updateInv_self inv pid s ⟨0, false⟩ hl
      · intro pid' hne
        rw [hr]; simp only [if_pos hc]
        exact lookupInv_updateInv_ne inv pid pid' _ hne
    · refine ⟨by rw [hr], ⟨⟨s.current_stock - qty, s.is_active⟩, ?_, rfl, ?_⟩, ?_⟩
      · rw [hr]; simp only [if_neg hc]
        exact lookupInv_updateInv_self inv pid s _ hl
      · simp only [ha]
        constructor
        · intro hfalse; simp at hfalse
        · intro hz; omega
      · intro pid' hne
        rw [hr]; simp only [if_neg hc]
        exact lookupInv_updateInv_ne inv pid pid' _ hne
  · intro hno
    have hin : in_stock inv pid qty = false := by
      cases hb : in_stock inv pid qty with
      | false => rfl
      | true => exact absurd ((in_stock_iff inv pid qty).mp hb) hno
    exact reserve_fail inv pid qty hin
  · intro hnn
    cases hin : in_stock inv pid qty with
    | false => rw [reserve_fail inv pid qty hin]; exact hnn
    | true =>
        obtain ⟨p, hp, hact, hq⟩ := (in_stock_iff inv pid qty).mp hin
        rw [reserve_success inv pid qty p hp hact hq]
        intro e he
        by_cases hc : p.current_stock - qty ≤ 0
        · simp only [if_pos hc] at he
          rcases mem_updateInv inv pid _ e he with h' | h'
          · subst h'; simp
          · exact hnn e h'
        · simp only [if_neg hc] at he
          rcases mem_updateInv inv pid _ e he with h' | h'
          · subst h'; simp; omega
          · exact hnn e h'

/-- Witness for C3 at a concrete ledger: one product with stock 5, reserving
2 units succeeds and leaves stock 3, still active. -/
theorem reserve_spec_witness :
    (reserve [(0, ⟨5, true⟩)] 0 2).1 = true ∧
    lookupInv (reserve [(0, ⟨5, true⟩)] 0 2).2 0 = some ⟨3, true⟩ := by
  have h := (reserve_spec [(0, ⟨5, true⟩)] 0 2).1 ⟨5, true⟩ rfl rfl (by decide)
  exact ⟨h.1, by decide⟩

/-- One committed transaction item line (`items` entry of a transaction
document); prices do not affect stock, so only the stock-relevant fields
`product_id` and `quantity` are carried. -/
structure TxItem where
  product_id : Nat
  quantity : Int
deriving Repr, DecidableEq

/-- Total `quantity` over the item lines referencing product `pid`. -/
def sumQtyFor (pid : Nat) (items : List TxItem) : Int :=
  (items.map (fun it => if it.product_id = pid then it.quantity else 0)).sum

lemma sumQtyFor_nil (pid : Nat) : sumQtyFor pid [] = 0 := rfl

lemma sumQtyFor_cons (pid : Nat) (it : TxItem) (items : List TxItem) :
    sumQtyFor pid (it :: items) =
      (if it.product_id = pid then it.quantity else 0) + sumQtyFor pid items := by
  simp [sumQtyFor]

lemma sumQtyFor_append (pid : Nat) (l₁ l₂ : List TxItem) :
    sumQtyFor pid (l₁ ++ l₂) = sumQtyFor pid l₁ + sumQtyFor pid l₂ := by
  simp [sumQtyFor]

/-- The session-linked commit loop of `session_record` (lines 364-380):
for each cart line, skip it when `qty <= 0`, otherwise call
`inv.reserve(pid, qty)` and keep the line only when the reservation
succeeds. -/
def commitCart : Inventory → List (Nat × Int) → List TxItem × Inventory
  | inv, [] => ([], inv)
  | inv, (pid, qty) :: rest =>
      if qty ≤ 0 then commitCart inv rest
      else
        if (reserve inv pid qty).1 then
          (⟨pid, qty⟩ :: (commitCart (reserve inv pid qty).2 rest).1,
           (commitCart (reserve inv pid qty).2 rest).2)
        else commitCart (reserve inv pid qty).2 rest

/-- The attempt loop of `gen_orphan_transaction`: up to `3 * n_items`
candidate draws (the `draws` list, one `(pid, qty)` pair per attempt),
stopping once `need` lines were kept; a candidate that is inactive or out
of stock is skipped, otherwise it is reserved and kept on success.  The
drawn candidate always exists in the ledger (`random.choice(products)`),
so the `none` branch is unreachable and skips. -/
def orphanAttempts : Inventory → Nat → List (Nat × Int) → List TxItem × Inventory
  | inv, _, [] => ([], inv)
  | inv, need, (pid, qty) :: rest =>
      if need = 0 then ([], inv)
      else
        match lookupInv inv pid with
        | none => orphanAttempts inv need rest
        | some p =>
            if p.is_active && decide (0 < p.current_stock) then
              if (reserve inv pid qty).1 then
                (⟨pid, qty⟩ :: (orphanAttempts (reserve inv pid qty).2 (need - 1) rest).1,
                 (orphanAttempts (reserve inv pid qty).2 (need - 1) rest).2)
              else orphanAttempts (reserve inv pid qty).2 need rest
            else orphanAttempts inv need rest

/-- `gen_orphan_transaction`: runs the attempt loop and returns no
transaction when no line reserved (`if not items: return None`). -/
def gen_orphan_transaction (inv : Inventory) (nItems : Nat) (draws : List (Nat × Int)) :
    Option (List TxItem) × Inventory :=
  if (orphanAttempts inv nItems draws).1.isEmpty then (none, (orphanAttempts inv nItems draws).2)
  else (some (orphanAttempts inv nItems draws).1, (orphanAttempts inv nItems draws).2)

/-- One stock-committing event of a run: a session-linked cart commit, or
one orphan-transaction attempt batch. -/
inductive TxOp where
  | commit (cart : List (Nat × Int)) : TxOp
  | orphan (nItems : Nat) (draws : List (Nat × Int)) : TxOp

/-- Items emitted and ledger reached by one committing event. -/
def runStep (inv : Inventory) : TxOp → List TxItem × Inventory
  | TxOp.commit cart => commitCart inv cart
  | TxOp.orphan n draws => orphanAttempts inv n draws

/-- A whole run: every committed item line of every transaction, in
generation order, together with the final ledger. -/
def runOps : Inventory → List TxOp → List TxItem × Inventory
  | inv, [] => ([], inv)
  | inv, op :: rest =>
      ((runStep inv op).1 ++ (runOps (runStep inv op).2 rest).1,
       (runOps (runStep inv op).2 rest).2)

lemma commitCart_track (cart : List (Nat × Int)) :
    ∀ (inv : Inventory) (pid : Nat) (s : ProductState), lookupInv inv pid = some s →
    ∃ s', lookupInv (commitCart inv cart).2 pid = some s' ∧
      s'.current_stock = s.current_stock - sumQtyFor pid (commitCart inv cart).1 ∧
      (0 ≤ s.current_stock → 0 ≤ s'.current_stock) ∧
      (s'.is_active = true → s.is_active = true) ∧
      ((s.current_stock = 0 → s.is_active = false) →
        (s'.current_stock = 0 → s'.is_active = false)) := by
  induction cart with
  | nil =>
      intro inv pid s h
      exact ⟨s, h, by simp [commitCart, sumQtyFor_nil], fun h0 => h0, fun h1 => h1, fun h2 => h2⟩
  | cons e rest ih =>
      obtain ⟨p, q⟩ := e
      intro inv pid s h
      by_cases hq : q ≤ 0
      · simpa only [commitCart, if_pos hq] using ih inv pid s h
      · obtain ⟨s₁, h₁, hst₁, hnn₁, hact₁, hszi₁⟩ := reserve_track inv p q pid s h
        obtain ⟨s', h', hst', hnn', hact', hszi'⟩ := ih (reserve inv p q).2 pid s₁ h₁
        cases hr : (reserve inv p q).1 with
        | true =>
            refine ⟨s', ?_, ?_, fun h0 => hnn' (hnn₁ h0), fun h1 => hact₁ (hact' h1),
              fun h2 => hszi' (hszi₁ h2)⟩
            · simp only [commitCart, if_neg hq, hr, if_pos]
              exact h'
            · simp only [commitCart, if_neg hq, hr, if_pos]
              rw [sumQtyFor_cons]
              rw [hr] at hst₁
              by_cases hpp : pid = p
              · subst hpp
                simp only [if_pos rfl, true_and, if_pos] at hst₁ ⊢
                omega
              · have hpp' : ¬ (p = pid) := fun hc => hpp hc.symm
                simp only [hpp, and_false, if_false, if_neg hpp'] at hst₁ ⊢
                omega
        | false =>
            rw [hr] at hst₁
            simp only [Bool.false_eq_true, false_and, if_neg (not_false)] at hst₁
            refine ⟨s', ?_, ?_, fun h0 => hnn' (hnn₁ h0), fun h1 => hact₁ (hact' h1),
              fun h2 => hszi' (hszi₁ h2)⟩
            · simp only [commitCart, if_neg hq, hr, Bool.false_eq_true, if_false]
              exact h'
            · simp only [commitCart, if_neg hq, hr, Bool.false_eq_true, if_false]
              omega

lemma orphanAttempts_track (draws : List (Nat × Int)) :
    ∀ (inv : Inventory) (need : Nat) (pid : Nat) (s : ProductState),
      lookupInv inv pid = some s →
    ∃ s', lookupInv (orphanAttempts inv need draws).2 pid = some s' ∧
      s'.current_stock = s.current_stock - sumQtyFor pid (orphanAttempts inv need draws).1 ∧
      (0 ≤ s.current_stock → 0 ≤ s'.current_stock) ∧
      (s'.is_active = true → s.is_active = true) ∧
      ((s.current_stock = 0 → s.is_active = false) →
        (s'.current_stock = 0 → s'.is_active = false)) := by
  induction draws with
  | nil =>
      intro inv need pid s h
      exact ⟨s, h, by simp [orphanAttempts, sumQtyFor_nil], fun h0 => h0, fun h1 => h1,
        fun h2 => h2⟩
  | cons e rest ih =>
      obtain ⟨p, q⟩ := e
      intro inv need pid s h
      by_cases hneed : need = 0
      · simp only [orphanAttempts, if_pos hneed]
        exact ⟨s, h, by simp [sumQtyFor_nil], fun h0 => h0, fun h1 => h1, fun h2 => h2⟩
      · cases hl : lookupInv inv p with
        | none =>
            simpa only [orphanAttempts, if_neg hneed, hl] using ih inv need pid s h
        | some pst =>
            by_cases hpre : (pst.is_active && decide (0 < pst.current_stock)) = true
            · obtain ⟨s₁, h₁, hst₁, hnn₁, hact₁, hszi₁⟩ := reserve_track inv p q pid s h
              cases hr : (reserve inv p q).1 with
              | true =>
                  obtain ⟨s', h', hst', hnn', hact', hszi'⟩ :=
                    ih (reserve inv p q).2 (need - 1) pid s₁ h₁
                  refine ⟨s', ?_, ?_, fun h0 => hnn' (hnn₁ h0), fun h1 => hact₁ (hact' h1),
                    fun h2 => hszi' (hszi₁ h2)⟩
                  · simp only [orphanAttempts, if_neg hneed, hl, hpre, if_pos, hr]
                    exact h'
                  · simp only [orphanAttempts, if_neg hneed, hl, hpre, if_pos, hr]
                    rw [sumQtyFor_cons]
                    rw [hr] at hst₁
                    by_cases hpp : pid = p
                    · subst hpp
                      simp only [if_pos rfl, true_and, if_pos] at hst₁ ⊢
                      omega
                    · have hpp' : ¬ (p = pid) := fun hc => hpp hc.symm
                      simp only [hpp, and_false, if_false, if_neg hpp'] at hst₁ ⊢
                      omega
              | false =>
                  obtain ⟨s', h', hst', hnn', hact', hszi'⟩ :=
                    ih (reserve inv p q).2 need pid s₁ h₁
                  rw [hr] at hst₁
                  simp only [Bool.false_eq_true, false_and, if_neg (not_false)] at hst₁
                  refine ⟨s', ?_, ?_, fun h0 => hnn' (hnn₁ h0), fun h1 => hact₁ (hact' h1),
                    fun h2 => hszi' (hszi₁ h2)⟩
                  · simp only [orphanAttempts, if_neg hneed, hl, hpre, if_pos, hr,
                      Bool.false_eq_true, if_false]
                    exact h'
                  · simp only [orphanAttempts, if_neg hneed, hl, hpre, if_pos, hr,
                      Bool.false_eq_true, if_false]
                    omega
            · have hpre' : (pst.is_active && decide (0 < pst.current_stock)) = false :=
                Bool.not_eq_true _ |>.mp hpre
              simpa only [orphanAttempts, if_neg hneed, hl, hpre', Bool.false_eq_true,
                if_false] using ih inv need pid s h

lemma runStep_track (op : TxOp) (inv : Inventory) (pid : Nat) (s : ProductState)
    (h : lookupInv inv pid = some s) :
    ∃ s', lookupInv (runStep inv op).2 pid = some s' ∧
      s'.current_stock = s.current_stock - sumQtyFor pid (runStep inv op).1 ∧
      (0 ≤ s.current_stock → 0 ≤ s'.current_stock) ∧
      (s'.is_active = true → s.is_active = true) ∧
      ((s.current_stock = 0 → s.is_active = false) →
        (s'.current_stock = 0 → s'.is_active = false)) := by
  cases op with
  | commit cart => exact commitCart_track cart inv pid s h
  | orphan n draws => exact orphanAttempts_track draws inv n pid s h

lemma runOps_track (ops : List TxOp) :
    ∀ (inv : Inventory) (pid : Nat) (s : ProductState), lookupInv inv pid = some s →
    ∃ s', lookupInv (runOps inv ops).2 pid = some s' ∧
      s'.current_stock = s.current_stock - sumQtyFor pid (runOps inv ops).1 ∧
      (0 ≤ s.current_stock → 0 ≤ s'.current_stock) ∧
      (s'.is_active = true → s.is_active = true) ∧
      ((s.current_stock = 0 → s.is_active = false) →
        (s'.current_stock = 0 → s'.is_active = false)) := by
  induction ops with
  | nil =>
      intro inv pid s h
      exact ⟨s, h, by simp [runOps, sumQtyFor_nil], fun h0 => h0, fun h1 => h1, fun h2 => h2⟩
  | cons op rest ih =>
      intro inv pid s h
      obtain ⟨s₁, h₁, hst₁, hnn₁, hact₁, hszi₁⟩ := runStep_track op inv pid s h
      obtain ⟨s', h', hst', hnn', hact', hszi'⟩ := ih (runStep inv op).2 pid s₁ h₁
      refine ⟨s', ?_, ?_, fun h0 => hnn' (hnn₁ h0), fun h1 => hact₁ (hact' h1),
        fun h2 => hszi' (hszi₁ h2)⟩
      · simpa only [runOps] using h'
      · simp only [runOps, sumQtyFor_append]
        omega

/-- C1: conservation — over any run (any interleaving of session-linked
cart commits and orphan-transaction batches, each line committed only
after a successful `reserve`), the summed committed quantity referencing a
product never exceeds that product's initial `current_stock`. -/
theorem stock_conservation (inv : Inventory) (ops : List TxOp) (pid : Nat) (s : ProductState)
    (hl : lookupInv inv pid = some s) (h0 : 0 ≤ s.current_stock) :
    sumQtyFor pid (runOps inv ops).1 ≤ s.current_stock := by
  obtain ⟨s', _, hst, hnn, _, _⟩ := runOps_track ops inv pid s hl
  have := hnn h0
  omega

/-- Witness for C1: a product starting at stock 5, hit by a session commit
and an orphan batch; its committed quantities sum to at most 5. -/
theorem stock_conservation_witness :
    lookupInv [(0, ⟨5, true⟩)] 0 = some ⟨5, true⟩ ∧
    sumQtyFor 0 (runOps [(0, ⟨5, true⟩)]
      [TxOp.commit [(0, 3)], TxOp.orphan 2 [(0, 9), (0, 1)]]).1 ≤
      (5 : Int) :=
  ⟨rfl, stock_conservation [(0, ⟨5, true⟩)] _ 0 ⟨5, true⟩ rfl (by decide)⟩

lemma commitCart_none (cart : List (Nat × Int)) :
    ∀ (inv : Inventory) (pid : Nat), lookupInv inv pid = none →
      lookupInv (commitCart inv cart).2 pid = none := by
  induction cart with
  | nil => intro inv pid h; simpa [commitCart] using h
  | cons e rest ih =>
      obtain ⟨p, q⟩ := e
      intro inv pid h
      by_cases hq : q ≤ 0
      · simpa only [commitCart, if_pos hq] using ih inv pid h
      · have h₁ : lookupInv (reserve inv p q).2 pid = none := reserve_none inv p q pid h
        cases hr : (reserve inv p q).1 with
        | true =>
            simp only [commitCart, if_neg hq, hr, if_pos]
            exact ih (reserve inv p q).2 pid h₁
        | false =>
            simp only [commitCart, if_neg hq, hr, Bool.false_eq_true, if_false]
            exact ih (reserve inv p q).2 pid h₁

lemma orphanAttempts_none (draws : List (Nat × Int)) :
    ∀ (inv : Inventory) (need : Nat) (pid : Nat), lookupInv inv pid = none →
      lookupInv (orphanAttempts inv need draws).2 pid = none := by
  induction draws with
  | nil => intro inv need pid h; simpa [orphanAttempts] using h
  | cons e rest ih =>
      obtain ⟨p, q⟩ := e
      intro inv need pid h
      by_cases hneed : need = 0
      · simpa only [orphanAttempts, if_pos hneed] using h
      · cases hl : lookupInv inv p with
        | none => simpa only [orphanAttempts, if_neg hneed, hl] using ih inv need pid h
        | some pst =>
            have h₁ : lookupInv (reserve inv p q).2 pid = none := reserve_none inv p q pid h
            by_cases hpre : (pst.is_active && decide (0 < pst.current_stock)) = true
            · cases hr : (reserve inv p q).1 with
              | true =>
                  simp only [orphanAttempts, if_neg hneed, hl, hpre, if_pos, hr]
                  exact ih (reserve inv p q).2 (need - 1) pid h₁
              | false =>
                  simp only [orphanAttempts, if_neg hneed, hl, hpre, if_pos, hr,
                    Bool.false_eq_true, if_false]
                  exact ih (reserve inv p q).2 need pid h₁
            · have hpre' : (pst.is_active && decide (0 < pst.current_stock)) = false :=
                Bool.not_eq_true _ |>.mp hpre
              simpa only [orphanAttempts, if_neg hneed, hl, hpre', Bool.false_eq_true,
                if_false] using ih inv need pid h

lemma runOps_none (ops : List TxOp) :
    ∀ (inv : Inventory) (pid : Nat), lookupInv inv pid = none →
      lookupInv (runOps inv ops).2 pid = none := by
  induction ops with
  | nil => intro inv pid h; simpa [runOps] using h
  | cons op rest ih =>
      intro inv pid h
      have h₁ : lookupInv (runStep inv op).2 pid = none := by
        cases op with
        | commit cart => exact commitCart_none cart inv pid h
        | orphan n draws => exact orphanAttempts_none draws inv n pid h
      simpa only [runOps] using ih (runStep inv op).2 pid h₁

/-- One product record as `gen_products` seeds it (lines 161-177): the stock
draw is `randint(10, 1000)`, zeroed with probability 0.7 when the activity
draw came out false, and the recorded flag is `bool(is_active and stock > 0)`. -/
def initProduct (stockDraw : Int) (activeDraw zeroDraw : Bool) : ProductState :=
  let stock : Int := if (!activeDraw) && zeroDraw then 0 else stockDraw
  ⟨stock, activeDraw && decide (0 < stock)⟩

/-- The ledger as seeded from `gen_products` output: one entry per product
draw tuple `(pid, stockDraw, activeDraw, zeroDraw)`. -/
def initInventory (draws : List (Nat × Int × Bool × Bool)) : Inventory :=
  draws.map (fun d => (d.1, initProduct d.2.1 d.2.2.1 d.2.2.2))

/-- No product has stock 0 while still being marked active. -/
def StockZeroInactive (inv : Inventory) : Prop :=
  ∀ pid s, lookupInv inv pid = some s → s.current_stock = 0 → s.is_active = false

lemma initProduct_stock_zero (sd : Int) (a z : Bool) :
    (initProduct sd a z).current_stock = 0 → (initProduct sd a z).is_active = false := by
  intro h
  simp only [initProduct] at h ⊢
  rw [h]
  simp

lemma initInventory_szi (draws : List (Nat × Int × Bool × Bool)) :
    StockZeroInactive (initInventory draws) := by
  induction draws with
  | nil => intro pid s h; simp [initInventory, lookupInv] at h
  | cons d rest ih =>
      intro pid s h hz
      simp only [initInventory, List.map_cons, lookupInv] at h
      by_cases hd : d.1 = pid
      · rw [if_pos hd] at h
        cases h
        exact initProduct_stock_zero _ _ _ hz
      · rw [if_neg hd] at h
        exact ih pid s h hz

lemma runOps_szi (ops : List TxOp) (inv : Inventory) (h : StockZeroInactive inv) :
    StockZeroInactive (runOps inv ops).2 := by
  intro pid s' h' hz'
  cases hsrc : lookupInv inv pid with
  | none =>
      rw [runOps_none ops inv pid hsrc] at h'
      cases h'
  | some s =>
      obtain ⟨s'', h'', _, _, _, hszi⟩ := runOps_track ops inv pid s hsrc
      rw [h''] at h'
      cases h'
      exact hszi (h pid s hsrc) hz'

/-- C5: deactivation monotonicity — starting from any `gen_products` ledger,
after any sequence of committing events no product is ever active with
stock 0 (so once stock hits 0 the product is inactive), and a product
active after further events was already active before them (no operation
re-activates a product). -/
theorem deactivation_monotone (draws : List (Nat × Int × Bool × Bool)) (ops extra : List TxOp) :
    StockZeroInactive (runOps (initInventory draws) ops).2 ∧
    (∀ pid s', lookupInv (runOps (runOps (initInventory draws) ops).2 extra).2 pid = some s' →
        s'.is_active = true →
        ∃ s, lookupInv (runOps (initInventory draws) ops).2 pid = some s ∧
          s.is_active = true) := by
  constructor
  · exact runOps_szi ops (initInventory draws) (initInventory_szi draws)
  · intro pid s' h' hact'
    cases hsrc : lookupInv (runOps (initInventory draws) ops).2 pid with
    | none =>
        rw [runOps_none extra _ pid hsrc] at h'
        cases h'
    | some s =>
        obtain ⟨s'', h'', _, _, hact, _⟩ := runOps_track extra _ pid s hsrc
        rw [h''] at h'
        cases h'
        exact ⟨s, rfl, hact hact'⟩

/-- The three `conversion_status` values a session document can carry. -/
inductive ConvStatus where
  | converted : ConvStatus
  | abandoned_cart : ConvStatus
  | browsing : ConvStatus
deriving Repr, DecidableEq

/-- A transaction document's linkage fields: `session_id` (null for orphan
transactions) and the committed item lines. -/
structure Tx where
  session_id : Option Nat
  items : List TxItem
deriving Repr, DecidableEq

/-- The inputs of one `session_record` call that decide its conversion and
transaction outcome: the session id, the built `cart_contents`
(product, quantity) pairs, and the outcome of the conversion draw
`random.random() < convert_prob`. -/
structure SessSpec where
  sid : Nat
  cart : List (Nat × Int)
  randConverted : Bool
deriving Repr, DecidableEq

/-- `has_cart = any(v["quantity"] > 0 for v in cart_contents.values())`. -/
def hasCart (cart : List (Nat × Int)) : Bool := cart.any (fun e => decide (0 < e.2))

/-- The conversion/transaction tail of `session_record` (lines 329-407):
`converted = draw and has_cart`; a converted session commits its filtered
`cart_contents` through `reserve`, yields a transaction carrying its
session id when at least one line reserved, and is downgraded to
`abandoned_cart` when none did; a non-converted session yields no
transaction and is `abandoned_cart` or `browsing` by `has_cart`. -/
def session_commit (inv : Inventory) (sp : SessSpec) : ConvStatus × Option Tx × Inventory :=
  if sp.randConverted && hasCart sp.cart then
    if (commitCart inv (sp.cart.filter (fun e => decide (0 < e.2)))).1.isEmpty then
      (ConvStatus.abandoned_cart, none,
       (commitCart inv (sp.cart.filter (fun e => decide (0 < e.2)))).2)
    else
      (ConvStatus.converted,
       some ⟨some sp.sid, (commitCart inv (sp.cart.filter (fun e => decide (0 < e.2)))).1⟩,
       (commitCart inv (sp.cart.filter (fun e => decide (0 < e.2)))).2)
  else
    ((if hasCart sp.cart then ConvStatus.abandoned_cart else ConvStatus.browsing), none, inv)

/-- What the orchestration loop (`iter_sessions_for_chunk` plus the chunk
buffer flush) accumulates: emitted session records (id and status),
transactions written to `transactions.json`, the running `tx_written`
counter, and the ledger. -/
structure RunOut where
  sessions : List (Nat × ConvStatus)
  txs : List Tx
  txWritten : Nat
  finalInv : Inventory
deriving Repr, DecidableEq

/-- `iter_sessions_for_chunk` over a list of session draws: every session
document is emitted; a produced transaction is appended to the transaction
stream only while `tx_written < tx_target` (lines 526-536). -/
def processSessions : Inventory → Nat → Nat → List SessSpec → RunOut
  | inv, _, txW, [] => ⟨[], [], txW, inv⟩
  | inv, txTarget, txW, sp :: rest =>
      match session_commit inv sp with
      | (st, some tx, inv') =>
          if txW < txTarget then
            let res := processSessions inv' txTarget (txW + 1) rest
            ⟨(sp.sid, st) :: res.sessions, tx :: res.txs, res.txWritten, res.finalInv⟩
          else
            let res := processSessions inv' txTarget txW rest
            ⟨(sp.sid, st) :: res.sessions, res.txs, res.txWritten, res.finalInv⟩
      | (st, none, inv') =>
          let res := processSessions inv' txTarget txW rest
          ⟨(sp.sid, st) :: res.sessions, res.txs, res.txWritten, res.finalInv⟩

/-- How many written transactions carry `session_id == sid`. -/
def txCountFor (sid : Nat) (txs : List Tx) : Nat :=
  (txs.filter (fun t => decide (t.session_id = some sid))).length

lemma txCountFor_cons (sid : Nat) (t : Tx) (ts : List Tx) :
    txCountFor sid (t :: ts) =
      if t.session_id = some sid then txCountFor sid ts + 1 else txCountFor sid ts := by
  by_cases h : t.session_id = some sid <;> simp [txCountFor, List.filter_cons, h]

lemma txCountFor_zero (sid : Nat) (ts : List Tx) (h : ∀ t ∈ ts, t.session_id ≠ some sid) :
    txCountFor sid ts = 0 := by
  induction ts with
  | nil => rfl
  | cons t rest ih =>
      rw [txCountFor_cons, if_neg (h t (List.mem_cons_self t rest))]
      exact ih (fun t' ht' => h t' (List.mem_cons_of_mem t ht'))

lemma session_commit_sid (inv : Inventory) (sp : SessSpec) (tx : Tx)
    (h : (session_commit inv sp).2.1 = some tx) : tx.session_id = some sp.sid := by
  by_cases h1 : (sp.randConverted && hasCart sp.cart) = true
  · by_cases h2 :
      ((commitCart inv (sp.cart.filter (fun e => decide (0 < e.2)))).1.isEmpty) = true
    · simp [session_commit, h1, h2] at h
    · simp only [session_commit, if_pos h1, h2, Bool.false_eq_true, if_false] at h
      cases h
      rfl
  · have h1' := Bool.not_eq_true _ |>.mp h1
    simp [session_commit, h1'] at h
  
lemma session_commit_status_iff (inv : Inventory) (sp : SessSpec) :
    (session_commit inv sp).1 = ConvStatus.converted ↔
      ((session_commit inv sp).2.1).isSome = true := by
  by_cases h1 : (sp.randConverted && hasCart sp.cart) = true
  · by_cases h2 :
      ((commitCart inv (sp.cart.filter (fun e => decide (0 < e.2)))).1.isEmpty) = true
    · simp [session_commit, h1, h2]
    · simp only [session_commit, if_pos h1, h2, Bool.false_eq_true, if_false]
      simp
  · have h1' := Bool.not_eq_true _ |>.mp h1
    by_cases h3 : hasCart sp.cart = true
    · have hrc : sp.randConverted = false := by
        cases hrc' : sp.randConverted with
        | false => rfl
        | true => rw [hrc', h3] at h1'; simp at h1'
      simp [session_commit, hrc, h3]
    · have h3' := Bool.not_eq_true _ |>.mp h3
      simp [session_commit, h1', h3']

lemma processSessions_sessions_sids (specs : List SessSpec) :
    ∀ (inv : Inventory) (txTarget txW : Nat),
      ((processSessions inv txTarget txW specs).sessions).map Prod.fst =
        specs.map SessSpec.sid := by
  induction specs with
  | nil => intro inv tt tw; rfl
  | cons sp rest ih =>
      intro inv tt tw
      rcases hsc : session_commit inv sp with ⟨st, otx, inv'⟩
      cases otx with
      | some tx =>
          by_cases htw : tw < tt <;>
            simp [processSessions, hsc, htw, ih]
      | none =>
          simp [processSessions, hsc, ih]

lemma processSessions_txs_sids (specs : List SessSpec) :
    ∀ (inv : Inventory) (txTarget txW : Nat) (t : Tx),
      t ∈ (processSessions inv txTarget txW specs).txs →
      ∃ sp, sp ∈ specs ∧ t.session_id = some sp.sid := by
  induction specs with
  | nil => intro inv tt tw t ht; simp [processSessions] at ht
  | cons sp rest ih =>
      intro inv tt tw t ht
      rcases hsc : session_commit inv sp with ⟨st, otx, inv'⟩
      cases otx with
      | some tx =>
          by_cases htw : tw < tt
          · simp only [processSessions, hsc, if_pos htw] at ht
            rcases List.mem_cons.mp ht with h | h
            · subst h
              exact ⟨sp, List.mem_cons_self sp rest,
                session_commit_sid inv sp t (by rw [hsc])⟩
            · obtain ⟨sp', hsp', hsid⟩ := ih inv' tt (tw + 1) t h
              exact ⟨sp', List.mem_cons_of_mem sp hsp', hsid⟩
          · simp only [processSessions, hsc, if_neg htw] at ht
            obtain ⟨sp', hsp', hsid⟩ := ih inv' tt tw t ht
            exact ⟨sp', List.mem_cons_of_mem sp hsp', hsid⟩
      | none =>
          simp only [processSessions, hsc] at ht
          obtain ⟨sp', hsp', hsid⟩ := ih inv' tt tw t ht
          exact ⟨sp', List.mem_cons_of_mem sp hsp', hsid⟩

/-- C2 (amended): as long as the transaction target is not exhausted while
sessions are generated (the remaining target covers the sessions) and the
drawn session ids do not collide, a session's `conversion_status` is
`converted` iff exactly one written transaction carries its session id. -/
theorem conversion_correspondence (specs : List SessSpec) :
    ∀ (inv : Inventory) (txTarget txW : Nat),
      (specs.map SessSpec.sid).Nodup →
      txW + specs.length ≤ txTarget →
      ∀ p ∈ (processSessions inv txTarget txW specs).sessions,
        (p.2 = ConvStatus.converted ↔
          txCountFor p.1 (processSessions inv txTarget txW specs).txs = 1) := by
  induction specs with
  | nil =>
      intro inv tt tw _ _ p hp
      simp [processSessions] at hp
  | cons sp rest ih =>
      intro inv tt tw hnodup hroom p hp
      simp only [List.map_cons, List.nodup_cons] at hnodup
      obtain ⟨hsid_notin, hnodup_rest⟩ := hnodup
      rcases hsc : session_commit inv sp with ⟨st, otx, inv'⟩
      cases otx with
      | some tx =>
          have htw : tw < tt := by
            simp only [List.length_cons] at hroom
            omega
          have htx_sid : tx.session_id = some sp.sid :=
            session_commit_sid inv sp tx (by rw [hsc])
          have hst : st = ConvStatus.converted := by
            have := (session_commit_status_iff inv sp).mpr (by rw [hsc]; rfl)
            rw [hsc] at this
            exact this
          simp only [processSessions, hsc, if_pos htw] at hp ⊢
          rcases List.mem_cons.mp hp with hph | hpt
          · subst hph
            constructor
            · intro _
              rw [txCountFor_cons, if_pos htx_sid,
                txCountFor_zero sp.sid _ ?_]
              intro t ht hts
              obtain ⟨sp', hsp', hsid'⟩ := processSessions_txs_sids rest inv' tt (tw + 1) t ht
              rw [hsid'] at hts
              exact hsid_notin (by
                have : sp'.sid = sp.sid := by
                  have := Option.some_inj.mp hts
                  exact this
                rw [← this]
                exact List.mem_map_of_mem SessSpec.sid hsp')
            · intro _
              exact hst
          · have hp1 : p.1 ∈ rest.map SessSpec.sid := by
              have := processSessions_sessions_sids rest inv' tt (tw + 1)
              rw [← this]
              exact List.mem_map_of_mem Prod.fst hpt
            have hp1_ne : p.1 ≠ sp.sid := fun hc => hsid_notin (hc ▸ hp1)
            have hcount :
                txCountFor p.1 (tx :: (processSessions inv' tt (tw + 1) rest).txs) =
                  txCountFor p.1 (processSessions inv' tt (tw + 1) rest).txs := by
              rw [txCountFor_cons, if_neg]
              rw [htx_sid]
              intro hc
              exact hp1_ne (Option.some_inj.mp hc).symm
            rw [hcount]
            exact ih inv' tt (tw + 1) hnodup_rest
              (by simp only [List.length_cons] at hroom; omega) p hpt
      | none =>
          have hst : st ≠ ConvStatus.converted := by
            intro hc
            have := (session_commit_status_iff inv sp).mp (by rw [hsc]; exact hc)
            rw [hsc] at this
            simp at this
          simp only [processSessions, hsc] at hp ⊢
          rcases List.mem_cons.mp hp with hph | hpt
          · subst hph
            constructor
            · intro hc
              exact absurd hc hst
            · intro hcount
              exfalso
              rw [txCountFor_zero sp.sid _ ?_] at hcount
              · exact Nat.zero_ne_one hcount
              · intro t ht hts
                obtain ⟨sp', hsp', hsid'⟩ := processSessions_txs_sids rest inv' tt tw t ht
                rw [hsid'] at hts
                exact hsid_notin (by
                  have : sp'.sid = sp.sid := Option.some_inj.mp hts
                  rw [← this]
                  exact List.mem_map_of_mem SessSpec.sid hsp')
          · exact ih inv' tt tw hnodup_rest
              (by simp only [List.length_cons] at hroom; omega) p hpt

/-- C2 counterexample: with the transaction target already met
(`tx_target = 0`), a converting session is still written with
`conversion_status == "converted"` but its produced transaction is
dropped, so no written transaction carries its session id. -/
theorem conversion_correspondence_cex :
    (processSessions [(0, ⟨5, true⟩)] 0 0 [⟨7, [(0, 2)], true⟩]).sessions
        = [(7, ConvStatus.converted)] ∧
    txCountFor 7 (processSessions [(0, ⟨5, true⟩)] 0 0 [⟨7, [(0, 2)], true⟩]).txs = 0 := by
  decide

/-- Witness for the amended C2 at a run whose transaction target is not
exhausted: the one converting session has exactly one written transaction. -/
theorem conversion_correspondence_witness :
    ConvStatus.converted = ConvStatus.converted ↔
      txCountFor 7 (processSessions [(0, ⟨5, true⟩)] 1 0 [⟨7, [(0, 2)], true⟩]).txs = 1 := by
  exact conversion_correspondence [⟨7, [(0, 2)], true⟩] [(0, ⟨5, true⟩)] 1 0
    (by decide) (by decide) (7, ConvStatus.converted) (by decide)

/-- The orchestrator's orphan fallback loop (lines 578-589), iterated over a
list of per-iteration draws (`nItems` and the candidate pairs): a `None`
from `gen_orphan_transaction` is `continue`; a transaction increments
`tx_written`.  The state after any finite number of iterations is the pair
(tx_written, ledger). -/
def orphanLoopRun : Inventory → Nat → List (Nat × List (Nat × Int)) → Nat × Inventory
  | inv, txW, [] => (txW, inv)
  | inv, txW, (nItems, draws) :: rest =>
      match (gen_orphan_transaction inv nItems draws).1 with
      | none => orphanLoopRun (gen_orphan_transaction inv nItems draws).2 txW rest
      | some _ => orphanLoopRun (gen_orphan_transaction inv nItems draws).2 (txW + 1) rest

/-- No product is active with positive stock: no orphan draw can ever pass
the availability pre-check, let alone reserve. -/
def noProductAvailable (inv : Inventory) : Prop :=
  ∀ e ∈ inv, ¬(e.2.is_active = true ∧ 0 < e.2.current_stock)

lemma orphanAttempts_stuck (draws : List (Nat × Int)) :
    ∀ (inv : Inventory) (need : Nat), noProductAvailable inv →
      orphanAttempts inv need draws = ([], inv) := by
  induction draws with
  | nil => intro inv need _; rfl
  | cons e rest ih =>
      obtain ⟨p, q⟩ := e
      intro inv need h
      by_cases hneed : need = 0
      · simp [orphanAttempts, hneed]
      · cases hl : lookupInv inv p with
        | none => simp only [orphanAttempts, if_neg hneed, hl]; exact ih inv need h
        | some pst =>
            have hmem := lookupInv_mem inv p pst hl
            have hno := h (p, pst) hmem
            have hpre : (pst.is_active && decide (0 < pst.current_stock)) = false := by
              cases ha : pst.is_active with
              | false => simp
              | true =>
                  simp only [Bool.true_and]
                  exact decide_eq_false (fun hc => hno ⟨ha, hc⟩)
            simp only [orphanAttempts, if_neg hneed, hl, hpre, Bool.false_eq_true, if_false]
            exact ih inv need h

lemma gen_orphan_transaction_stuck (inv : Inventory) (nItems : Nat)
    (draws : List (Nat × Int)) (h : noProductAvailable inv) :
    gen_orphan_transaction inv nItems draws = (none, inv) := by
  simp [gen_orphan_transaction, orphanAttempts_stuck draws inv nItems h]

/-- C4: with the product pool exhausted, every iteration of the orphan
fallback loop hits `continue` — after any finite number of iterations
`tx_written` and the ledger are exactly as before, so the loop guard
`tx_written < tx_target` never turns false and the loop never exits.
(The source has no exhaustion check: the claimed stop-and-report-shortfall
behavior does not exist.) -/
theorem orphan_loop_stuck (inv : Inventory) (h : noProductAvailable inv)
    (txW : Nat) (iters : List (Nat × List (Nat × Int))) :
    orphanLoopRun inv txW iters = (txW, inv) := by
  induction iters with
  | nil => rfl
  | cons it rest ih =>
      obtain ⟨nItems, draws⟩ := it
      have hg := gen_orphan_transaction_stuck inv nItems draws h
      simp only [orphanLoopRun, hg]
      exact ih

/-- Witness for C4: a one-product ledger with stock 0; three loop
iterations later `tx_written` is still 0 (below any positive target) and
the ledger is unchanged. -/
theorem orphan_loop_stuck_witness :
    orphanLoopRun [(0, ⟨0, false⟩)] 0 [(2, [(0, 1)]), (1, [(0, 2), (0, 3)]), (3, [])]
      = (0, [(0, ⟨0, false⟩)]) :=
  orphan_loop_stuck [(0, ⟨0, false⟩)] (by unfold noProductAvailable; decide) 0 _

/-- One iteration of the orchestrator's chunk loop (lines 545-575):
`this_chunk = min(chunk_size, sess_target - sess_written)`; the chunk
iterator yields one session per element of `range(this_chunk)` — none at
all when `this_chunk <= 0` — and `sess_written` grows by the count the
writer returns. -/
def chunkLoopStep (chunkSize sessTarget sessWritten : Int) : Int :=
  sessWritten + max (min chunkSize (sessTarget - sessWritten)) 0

/-- The chunk loop iterated `k` times. -/
def chunkLoopRun (chunkSize sessTarget : Int) : Int → Nat → Int
  | sw, 0 => sw
  | sw, Nat.succ k => chunkLoopRun chunkSize sessTarget (chunkLoopStep chunkSize sessTarget sw) k

/-- C8: the source validates no configuration value.  With a non-positive
`sessions_chunk_size` and the session target still unmet, every chunk-loop
iteration writes zero sessions, so after any number of iterations
`sess_written` is unchanged and the guard `sess_written < sess_target`
still holds: the run loops forever instead of aborting with a non-zero
exit code. -/
theorem chunk_loop_no_abort (chunkSize sessTarget sessWritten : Int)
    (hcs : chunkSize ≤ 0) (hlt : sessWritten < sessTarget) (k : Nat) :
    chunkLoopRun chunkSize sessTarget sessWritten k = sessWritten ∧
      sessWritten < sessTarget := by
  have hstep : chunkLoopStep chunkSize sessTarget sessWritten = sessWritten := by
    have h1 : min chunkSize (sessTarget - sessWritten) ≤ 0 :=
      le_trans (min_le_left _ _) hcs
    simp only [chunkLoopStep]
    omega
  refine ⟨?_, hlt⟩
  induction k with
  | zero => rfl
  | succ k ih =>
      simp only [chunkLoopRun, hstep]
      exact ih

/-- Witness for C8: chunk size 0, session target 1; after 5 iterations no
session has been written and the loop guard still holds. -/
theorem chunk_loop_no_abort_witness :
    chunkLoopRun 0 1 0 5 = 0 ∧ (0 : Int) < 1 :=
  chunk_loop_no_abort 0 1 0 (by decide) (by decide) 5

/-- `make_page_flow` (lines 222-226): the drawn interior cut points
(`n_views - 1` draws of `randint(1, duration - 1)`, the `cuts` list) are
collected into a set together with the endpoints 0 and `duration`, then
sorted ascending.  Set semantics = deduplicate, then sort. -/
def make_page_flow (duration : Nat) (cuts : List Nat) : List Nat :=
  List.insertionSort (· ≤ ·) ((0 :: duration :: cuts).dedup)

/-- Number of page views the slot walk emits: one per consecutive pair of
the slot list (`for i in range(len(slots) - 1)`). -/
def numPageViews (duration : Nat) (cuts : List Nat) : Nat :=
  (make_page_flow duration cuts).length - 1

/-- Each page view's time window: the consecutive pairs
`(slots[i], slots[i+1])`; its `view_duration` is the difference and its
timestamp offset is the left endpoint (lines 279-281, 319). -/
def pageViewWindows (slots : List Nat) : List (Nat × Nat) := slots.zip slots.tail

/-- C6 counterexample: duration 30, `n_views = 4` (in 4..14), three interior
cut draws all equal to 5 (each a legal `randint(1, 29)` outcome): the set
union collapses them, the slot list is `[0, 5, 30]` and only 2 page views
are emitted — fewer than the claimed minimum of 4. -/
theorem page_flow_cex :
    ([5, 5, 5] : List Nat).length = 4 - 1 ∧
    (∀ c ∈ ([5, 5, 5] : List Nat), 1 ≤ c ∧ c ≤ 30 - 1) ∧
    (4 ≤ 4 ∧ 4 ≤ 14 ∧ 30 ≤ 30) ∧
    numPageViews 30 [5, 5, 5] = 2 ∧
    ¬ (4 ≤ numPageViews 30 [5, 5, 5]) := by
  decide

/-- C6 (amended): for every legal draw (4-14 requested views, hence 3-13
interior cuts, each strictly inside the duration), the emitted page-view
count is between 2 and 14 — collisions among the drawn cut points can push
it below 4 — and the slot list is the sorted duplicate-free union of the
cuts with the endpoints, consecutive pairs of which form the page-view
windows. -/
theorem page_flow_bounds (duration nViews : Nat) (cuts : List Nat)
    (hdur : 30 ≤ duration) (hn4 : 4 ≤ nViews) (hn14 : nViews ≤ 14)
    (hlen : cuts.length = nViews - 1)
    (hcuts : ∀ c ∈ cuts, 1 ≤ c ∧ c ≤ duration - 1) :
    2 ≤ numPageViews duration cuts ∧ numPageViews duration cuts ≤ 14 ∧
    (make_page_flow duration cuts).Sorted (· ≤ ·) ∧
    (make_page_flow duration cuts).Nodup ∧
    0 ∈ make_page_flow duration cuts ∧ duration ∈ make_page_flow duration cuts ∧
    (pageViewWindows (make_page_flow duration cuts)).length = numPageViews duration cuts := by
  have hperm : List.Perm (make_page_flow duration cuts) ((0 :: duration :: cuts).dedup) :=
    List.perm_insertionSort _ _
  have hnd : (make_page_flow duration cuts).Nodup :=
    hperm.nodup_iff.mpr (List.nodup_dedup _)
  have hlenpts : (make_page_flow duration cuts).length =
      ((0 :: duration :: cuts).dedup).length := hperm.length_eq
  have hmem : ∀ a, a ∈ make_page_flow duration cuts ↔ a ∈ (0 :: duration :: cuts) := by
    intro a
    rw [hperm.mem_iff, List.mem_dedup]
  have hupper : (make_page_flow duration cuts).length ≤ cuts.length + 2 := by
    rw [hlenpts]
    have := (List.dedup_sublist (0 :: duration :: cuts)).length_le
    simpa [Nat.add_comm, Nat.add_left_comm] using this
  have hlower : 3 ≤ (make_page_flow duration cuts).length := by
    cases hcs : cuts with
    | nil => simp [hcs] at hlen; omega
    | cons c cs =>
        have hc := hcuts c (by rw [hcs]; exact List.mem_cons_self c cs)
        have h0c : (0 : Nat) ≠ c := by omega
        have h0d : (0 : Nat) ≠ duration := by omega
        have hcd : c ≠ duration := by omega
        have hsub : ({0, c, duration} : Finset ℕ) ⊆ (make_page_flow duration cuts).toFinset := by
          intro x hx
          rw [List.mem_toFinset, hmem]
          rcases Finset.mem_insert.mp hx with h | hx'
          · subst h; exact List.mem_cons_self _ _
          rcases Finset.mem_insert.mp hx' with h | hx''
          · subst h
            exact List.mem_cons_of_mem _ (List.mem_cons_of_mem _ (by rw [hcs]; simp))
          · rw [Finset.mem_singleton] at hx''
            subst hx''
            exact List.mem_cons_of_mem _ (List.mem_cons_self _ _)
        have hcard3 : ({0, c, duration} : Finset ℕ).card = 3 := by
          rw [Finset.card_insert_of_not_mem (by simp [h0c, h0d]),
            Finset.card_insert_of_not_mem (by simp [hcd])]
          rfl
        have h3 : 3 ≤ (make_page_flow duration cuts).toFinset.card :=
          hcard3 ▸ Finset.card_le_card hsub
        rw [List.toFinset_card_of_nodup hnd] at h3
        rw [← hcs]
        exact h3
  refine ⟨?_, ?_, List.sorted_insertionSort _ _, hnd, ?_, ?_, ?_⟩
  · show 2 ≤ (make_page_flow duration cuts).length - 1
    omega
  · show (make_page_flow duration cuts).length - 1 ≤ 14
    omega
  · exact (hmem 0).mpr (List.mem_cons_self _ _)
  · exact (hmem duration).mpr (List.mem_cons_of_mem _ (List.mem_cons_self _ _))
  · show (pageViewWindows (make_page_flow duration cuts)).length =
      (make_page_flow duration cuts).length - 1
    rw [pageViewWindows, List.length_zip, List.length_tail]
    exact Nat.min_eq_right (Nat.sub_le _ _)

/-- Witness for the amended C6: duration 30 with distinct cuts 3, 7, 9 gives
4 page views; the instantiated bounds and structure facts all hold. -/
theorem page_flow_bounds_witness :
    2 ≤ numPageViews 30 [3, 7, 9] ∧ numPageViews 30 [3, 7, 9] ≤ 14 ∧
    (make_page_flow 30 [3, 7, 9]).Sorted (· ≤ ·) ∧
    (make_page_flow 30 [3, 7, 9]).Nodup ∧
    0 ∈ make_page_flow 30 [3, 7, 9] ∧ 30 ∈ make_page_flow 30 [3, 7, 9] ∧
    (pageViewWindows (make_page_flow 30 [3, 7, 9])).length = numPageViews 30 [3, 7, 9] :=
  page_flow_bounds 30 4 [3, 7, 9] (by decide) (by decide) (by decide) (by decide) (by decide)

/-- Separator-joined concatenation (`sep.join(parts)`), used to describe the
writer's output. -/
def interc (sep : List Char) : List (List Char) → List Char
  | [] => []
  | [s] => s
  | s :: rest => s ++ sep ++ interc sep rest

/-- The writer's item loop (lines 61-69): before every item but the first a
`",\n"` separator, then the serialized item; the second component is the
running `count`.  File contents are modelled as character lists; `dumps`
stands for `json.dumps` (whose output never contains a newline when called
without `indent`). -/
def writeItems {α : Type} (dumps : α → List Char) : List α → Bool → List Char × Nat
  | [], _ => ([], 0)
  | x :: xs, first =>
      ((if first then [] else [',', '\n']) ++ dumps x ++ (writeItems dumps xs false).1,
       (writeItems dumps xs false).2 + 1)

/-- `write_json_array`: `"[\n"`, the comma/newline-separated serialized
items, then `"\n]\n"`; returns the count written.  Directory creation and
progress printing are I/O only and do not affect the produced text. -/
def write_json_array {α : Type} (dumps : α → List Char) (items : List α) : List Char × Nat :=
  ('[' :: '\n' :: ((writeItems dumps items true).1 ++ '\n' :: ']' :: '\n' :: []),
   (writeItems dumps items true).2)

/-- JSON insignificant whitespace characters (RFC 8259). -/
def isWsChar (c : Char) : Bool := (c == ' ') || (c == '\n') || (c == '\t') || (c == '\r')

/-- A run of JSON whitespace. -/
def IsWs (s : List Char) : Prop := ∀ c ∈ s, isWsChar c = true

/-- A JSON array element: the serialized value `v` surrounded by optional
whitespace, `v` being a valid value by the given value predicate. -/
def ElementOf (IsValue : List Char → Prop) (v s : List Char) : Prop :=
  ∃ w1 w2, IsWs w1 ∧ IsWs w2 ∧ s = w1 ++ v ++ w2 ∧ IsValue v

/-- A JSON array production: `[` ws `]` for no elements, or `[` followed by
comma-separated elements and `]`, the elements being exactly `vals` in
order. -/
def JsonArrayBody (IsValue : List Char → Prop) (vals : List (List Char)) (s : List Char) :
    Prop :=
  (vals = [] ∧ ∃ w, IsWs w ∧ s = '[' :: (w ++ [']'])) ∨
  (∃ parts : List (List Char), List.Forall₂ (ElementOf IsValue) vals parts ∧
     s = '[' :: (interc [','] parts ++ [']']))

/-- A JSON text holding exactly the array of `vals`: the array surrounded
by optional whitespace. -/
def JsonTextArrayOf (IsValue : List Char → Prop) (vals : List (List Char)) (s : List Char) :
    Prop :=
  ∃ w1 w2 mid, IsWs w1 ∧ IsWs w2 ∧ s = w1 ++ mid ++ w2 ∧ JsonArrayBody IsValue vals mid

lemma writeItems_count {α : Type} (dumps : α → List Char) :
    ∀ (items : List α) (b : Bool), (writeItems dumps items b).2 = items.length := by
  intro items
  induction items with
  | nil => intro b; rfl
  | cons x xs ih => intro b; simp [writeItems, ih]

lemma writeItems_false_eq {α : Type} (dumps : α → List Char) :
    ∀ items : List α,
      (writeItems dumps items false).1 =
        (items.map (fun x => ',' :: '\n' :: dumps x)).flatten := by
  intro items
  induction items with
  | nil => rfl
  | cons x xs ih => simp [writeItems, ih]

lemma interc_map_eq {α : Type} (dumps : α → List Char) (x : α) :
    ∀ xs : List α,
      interc [',', '\n'] ((x :: xs).map dumps) =
        dumps x ++ (xs.map (fun y => ',' :: '\n' :: dumps y)).flatten := by
  intro xs
  induction xs generalizing x with
  | nil => simp [interc]
  | cons y ys ih =>
      simp only [List.map_cons, interc, List.map, List.flatten]
      rw [show (dumps y :: List.map dumps ys) = List.map dumps (y :: ys) by simp]
      rw [ih y]
      simp

lemma writeItems_true_eq {α : Type} (dumps : α → List Char) :
    ∀ items : List α,
      (writeItems dumps items true).1 = interc [',', '\n'] (items.map dumps) := by
  intro items
  cases items with
  | nil => rfl
  | cons x xs =>
      simp only [writeItems, if_pos, List.nil_append]
      rw [writeItems_false_eq dumps xs, interc_map_eq dumps x xs]

/-- Pads each serialized element with the newline whitespace the writer
actually emits around it: a leading `\n` on every element, plus the closing
`\n` on the last. -/
def padParts : List (List Char) → List (List Char)
  | [] => []
  | [v] => [('\n' :: v) ++ ['\n']]
  | v :: rest => ('\n' :: v) :: padParts rest

lemma interc_cons_of_ne_nil (sep s : List Char) (rest : List (List Char)) (h : rest ≠ []) :
    interc sep (s :: rest) = s ++ sep ++ interc sep rest := by
  cases rest with
  | nil => exact absurd rfl h
  | cons w ws => rfl

lemma padParts_ne_nil :
    ∀ vs : List (List Char), vs ≠ [] → padParts vs ≠ [] := by
  intro vs h
  cases vs with
  | nil => exact absurd rfl h
  | cons v rest =>
      cases rest with
      | nil => simp [padParts]
      | cons w ws => simp [padParts]

lemma interc_padParts :
    ∀ vs : List (List Char), vs ≠ [] →
      interc [','] (padParts vs) = '\n' :: (interc [',', '\n'] vs ++ ['\n']) := by
  intro vs
  induction vs with
  | nil => intro h; exact absurd rfl h
  | cons v rest ih =>
      intro _
      cases rest with
      | nil => simp [padParts, interc]
      | cons w ws =>
          have hne : (w :: ws) ≠ [] := by simp
          simp only [padParts]
          rw [interc_cons_of_ne_nil [','] ('\n' :: v) (padParts (w :: ws))
            (padParts_ne_nil (w :: ws) hne)]
          rw [ih hne]
          rw [interc_cons_of_ne_nil [',', '\n'] v (w :: ws) hne]
          simp

lemma forall₂_padParts (IsValue : List Char → Prop) :
    ∀ vs : List (List Char), (∀ v ∈ vs, IsValue v) →
      List.Forall₂ (ElementOf IsValue) vs (padParts vs) := by
  intro vs
  induction vs with
  | nil => intro _; exact List.Forall₂.nil
  | cons v rest ih =>
      intro hval
      cases rest with
      | nil =>
          refine List.Forall₂.cons ?_ List.Forall₂.nil
          refine ⟨['\n'], ['\n'], by unfold IsWs; decide, by unfold IsWs; decide, by simp, hval v (by simp)⟩
      | cons w ws =>
          refine List.Forall₂.cons ?_ (ih ?_)
          · exact ⟨['\n'], [], by unfold IsWs; decide, by unfold IsWs; decide, by simp, hval v (by simp)⟩
          · intro u hu
            exact hval u (List.mem_cons_of_mem v hu)

/-- C7: `write_json_array` returns exactly the number of records of the
source, and its output is a syntactically valid JSON array text whose
elements are exactly the serialized input records in source order (an
empty source yields a valid empty array). -/
theorem write_json_array_spec {α : Type} (dumps : α → List Char) (IsValue : List Char → Prop)
    (items : List α) (hval : ∀ x ∈ items, IsValue (dumps x)) :
    (write_json_array dumps items).2 = items.length ∧
    JsonTextArrayOf IsValue (items.map dumps) (write_json_array dumps items).1 := by
  constructor
  · exact writeItems_count dumps items true
  · refine ⟨[], ['\n'],
      '[' :: '\n' :: ((writeItems dumps items true).1 ++ ['\n', ']']), ?_, ?_, ?_, ?_⟩
    · intro c hc; simp at hc
    · intro c hc; simp at hc; rw [hc]; rfl
    · simp [write_json_array]
    · cases hit : items with
      | nil =>
          left
          refine ⟨by simp, ['\n', '\n'], by unfold IsWs; decide, ?_⟩
          rw [writeItems_true_eq]
          simp [hit, interc]
      | cons x xs =>
          right
          refine ⟨padParts ((x :: xs).map dumps), ?_, ?_⟩
          · refine forall₂_padParts IsValue ((x :: xs).map dumps) ?_
            intro v hv
            obtain ⟨y, hy, hvy⟩ := List.mem_map.mp hv
            rw [← hvy]
            refine hval y ?_
            rw [hit]
            exact hy
          · rw [writeItems_true_eq]
            rw [interc_padParts _ (by simp)]
            simp

/-- Serializer used by the closed witness run. -/
def sampleDumps (n : Nat) : List Char := if n = 0 then ['0'] else ['1']

/-- Witness for C7: writing the two-record source `[1, 0]` returns count 2
and produces a JSON array text of exactly the two serialized records. -/
theorem write_json_array_spec_witness :
    (write_json_array sampleDumps [1, 0]).2 = 2 ∧
    JsonTextArrayOf (fun v => v.length = 1) ([1, 0].map sampleDumps)
      (write_json_array sampleDumps [1, 0]).1 :=
  write_json_array_spec sampleDumps (fun v => v.length = 1) [1, 0] (by decide)

/-- The availability test of the product-detail draw loop (line 297):
`cand["is_active"] and cand["current_stock"] > 0`, read off the live ledger
(the candidate dict is the same object the ledger mutates). -/
def qualifies (inv : Inventory) (pid : Nat) : Bool :=
  match lookupInv inv pid with
  | none => false
  | some s => s.is_active && decide (0 < s.current_stock)

/-- The product-detail pick (lines 294-301): scan the preferential draws in
order, stopping at the first that qualifies; when none does, one extra
unconditional draw (`fb`, a fresh `random.choice(products)`) is accepted.
Returns the recorded product and how many draws were consumed. -/
def pickDetailRun : Inventory → List Nat → Nat → Nat × Nat
  | _, [], fb => (fb, 1)
  | inv, d :: ds, fb =>
      if qualifies inv d then (d, 1)
      else ((pickDetailRun inv ds fb).1, (pickDetailRun inv ds fb).2 + 1)

/-- C9 counterexample: a ledger where no product is active and in stock;
the five preferential draws all fail, and the code then makes a sixth,
fresh draw (here product 1) and records it — not the last of the five
draws (product 0), and six draws in total, not at most five. -/
theorem product_detail_cex :
    (∀ d ∈ ([0, 1, 0, 1, 0] : List Nat),
      (lookupInv [(0, ⟨0, false⟩), (1, ⟨0, false⟩)] d).isSome = true) ∧
    (∀ d ∈ ([0, 1, 0, 1, 0] : List Nat),
      qualifies [(0, ⟨0, false⟩), (1, ⟨0, false⟩)] d = false) ∧
    pickDetailRun [(0, ⟨0, false⟩), (1, ⟨0, false⟩)] [0, 1, 0, 1, 0] 1 = (1, 6) ∧
    (1 : Nat) ≠ 0 ∧ ¬ ((6 : Nat) ≤ 5) := by
  decide

lemma pickDetailRun_none (inv : Inventory) (fb : Nat) :
    ∀ draws : List Nat, (∀ d ∈ draws, qualifies inv d = false) →
      pickDetailRun inv draws fb = (fb, draws.length + 1) := by
  intro draws
  induction draws with
  | nil => intro _; rfl
  | cons d ds ih =>
      intro h
      have hd : qualifies inv d = false := h d (List.mem_cons_self d ds)
      simp only [pickDetailRun, hd, Bool.false_eq_true, if_false]
      rw [ih (fun x hx => h x (List.mem_cons_of_mem d hx))]
      simp

lemma pickDetailRun_first (inv : Inventory) (fb d : Nat) (l₂ : List Nat) :
    ∀ l₁ : List Nat, (∀ x ∈ l₁, qualifies inv x = false) → qualifies inv d = true →
      pickDetailRun inv (l₁ ++ d :: l₂) fb = (d, l₁.length + 1) := by
  intro l₁
  induction l₁ with
  | nil =>
      intro _ hd
      simp [pickDetailRun, hd]
  | cons x xs ih =>
      intro h hd
      have hx : qualifies inv x = false := h x (List.mem_cons_self x xs)
      simp only [List.cons_append, pickDetailRun, hx, Bool.false_eq_true, if_false,
        List.append_eq]
      rw [ih (fun y hy => h y (List.mem_cons_of_mem x hy)) hd]
      simp

lemma pickDetailRun_le (inv : Inventory) (fb : Nat) :
    ∀ draws : List Nat, (pickDetailRun inv draws fb).2 ≤ draws.length + 1 := by
  intro draws
  induction draws with
  | nil => simp [pickDetailRun]
  | cons d ds ih =>
      by_cases hd : qualifies inv d = true
      · simp [pickDetailRun, hd]
      · have hd' := Bool.not_eq_true _ |>.mp hd
        simp only [pickDetailRun, hd', Bool.false_eq_true, if_false, List.length_cons]
        omega

/-- C9 (amended): the product-detail pick makes at most 6 draws — it
records the first of the up-to-5 preferential draws that is active and in
stock (consuming one draw per attempt), and when none of the 5 qualifies
it makes one additional unconditional draw, the sixth, and records that
fresh draw. -/
theorem product_detail_pick (inv : Inventory) (draws : List Nat) (fb : Nat)
    (hlen : draws.length = 5) :
    ((∀ d ∈ draws, qualifies inv d = false) →
        pickDetailRun inv draws fb = (fb, 6)) ∧
    (∀ l₁ d l₂, draws = l₁ ++ d :: l₂ → (∀ x ∈ l₁, qualifies inv x = false) →
        qualifies inv d = true →
        pickDetailRun inv draws fb = (d, l₁.length + 1)) ∧
    (pickDetailRun inv draws fb).2 ≤ 6 := by
  refine ⟨?_, ?_, ?_⟩
  · intro h
    rw [pickDetailRun_none inv fb draws h, hlen]
  · intro l₁ d l₂ hsplit h hd
    rw [hsplit]
    exact pickDetailRun_first inv fb d l₂ l₁ h hd
  · have := pickDetailRun_le inv fb draws
    omega

/-- Witness for the amended C9 at a concrete ledger and five concrete
draws: at most six draws are consumed. -/
theorem product_detail_pick_witness :
    (pickDetailRun [(3, ⟨2, true⟩)] [0, 1, 2, 3, 4] 9).2 ≤ 6 :=
  (product_detail_pick [(3, ⟨2, true⟩)] [0, 1, 2, 3, 4] 9 rfl).2.2

/-- One page-view slot's draw data, as far as the viewed-products set is
concerned: a non-detail page records no product; a `product_detail` page
records the pick from its preferential draws and fallback draw. -/
inductive SlotDraw where
  | nonDetail : SlotDraw
  | detail (draws : List Nat) (fallback : Nat) : SlotDraw

/-- The `product_id` recorded by one slot (lines 284, 303). -/
def slotPid (inv : Inventory) : SlotDraw → Option Nat
  | SlotDraw.nonDetail => none
  | SlotDraw.detail draws fb => some (pickDetailRun inv draws fb).1

/-- The products recorded on the session's product-detail page views, in
page order (`viewed_products.add(product_id)` at line 305). -/
def detailPids (inv : Inventory) (slotList : List SlotDraw) : List Nat :=
  slotList.filterMap (slotPid inv)

/-- `sorted(viewed_products)` at line 354: the set of recorded products,
sorted ascending. -/
def viewed_products (recs : List Nat) : List Nat :=
  Finset.sort (· ≤ ·) recs.toFinset

/-- C10: the emitted `viewed_products` list is strictly ascending (hence
duplicate-free) and holds exactly the products recorded on the session's
product-detail page views. -/
theorem viewed_products_spec (inv : Inventory) (slotList : List SlotDraw) :
    (viewed_products (detailPids inv slotList)).Sorted (· < ·) ∧
    (viewed_products (detailPids inv slotList)).Nodup ∧
    ∀ p, p ∈ viewed_products (detailPids inv slotList) ↔ p ∈ detailPids inv slotList := by
  refine ⟨Finset.sort_sorted_lt _, Finset.sort_nodup _ _, ?_⟩
  intro p
  rw [viewed_products, Finset.mem_sort, List.mem_toFinset]
